import Mathlib

/-! The audio synthesis callback of `src/main.c`.

A shallow embedding of `audio_callback` (lines 44-90 of `src/main.c`) together with the
score tables and the `AudioState` record it works on.

Conventions of the embedding.

* A C `int` is an `Int`; `/` and `%` on `int` are `Int.tdiv` and `Int.tmod` (truncation
  toward zero).  The increment `sample_pos++` of line 88 wraps to 32 bits, two's complement,
  as the compiled program does (ISO C leaves the overflow undefined); no other `int`
  operation of the callback can overflow.
  Conversions to `size_t` (64 bit) and back to `int` (32 bit) are modelled explicitly, since
  the source divides by `sizeof` expressions, which are of type `size_t`.
* The callback as a whole is embedded with exact arithmetic: a C `double` is an element of a
  linearly ordered field `K` with a floor function, the constant `M_PI` is the decimal
  literal of line 8 and the score tables hold the decimal literals of lines 14-31, kept as
  rationals and cast into `K`.  The definitions are generic in `K`; they run on `ℚ`.
* The only libm function that is not field arithmetic, `sin`, is an argument `sn : K → K` of
  the definitions that call it; the theorems take `Real.sin` for it.
* The oscillator bank (lines 80-88), whose state is carried from sample to sample, is embedded
  a second time with the arithmetic of binary64: every literal and every result of `*`, `/`,
  `+`, `-` is rounded to the nearest number with 53 significant bits, ties to even.
-/

namespace Synth

/-! ## Constants and tables -/

/-- Line 8: `#define M_PI 3.14159265358979323846`, the decimal literal.  The `double` it
denotes is `M_PI_double`. -/
def M_PI : ℚ := 3.14159265358979323846

/-- Line 11: `#define SAMPLE_RATE 44100`. -/
def SAMPLE_RATE : Int := 44100

/-- Line 12: `#define AUDIO_BUFFER 2048`. -/
def AUDIO_BUFFER : Int := 2048

/-- Lines 14-23: the melody table, as the decimal literals of the source.  The `double` an
entry denotes is its rounding to binary64, `melody_freq_double`. -/
def melody_notes : List ℚ :=
  [164.81, 196.00, 220.00, 246.94,
   220.00, 196.00, 164.81, 146.83,
   164.81, 220.00, 261.63, 293.66,
   261.63, 220.00, 196.00, 164.81,
   130.81, 164.81, 196.00, 220.00,
   196.00, 164.81, 146.83, 130.81,
   146.83, 174.61, 196.00, 220.00,
   246.94, 220.00, 196.00, 164.81]

/-- Line 24: `sizeof(melody_notes) / sizeof(melody_notes[0])`, a `size_t`. -/
def MELODY_LEN : Int := melody_notes.length

/-- Lines 26-31: the bass table, as the decimal literals of the source.  The `double` an
entry denotes is its rounding to binary64, `bass_freq_double`. -/
def bass_notes : List ℚ :=
  [82.41, 82.41, 110.00, 110.00,
   98.00, 98.00, 82.41, 82.41,
   73.42, 73.42, 98.00, 98.00,
   82.41, 82.41, 110.00, 82.41]

/-- Line 32: `sizeof(bass_notes) / sizeof(bass_notes[0])`, a `size_t`. -/
def BASS_LEN : Int := bass_notes.length

/-- Size in bytes of one output sample, `sizeof(Sint16)`. -/
def SIZEOF_SINT16 : Int := 2

/-- Lines 34-40: the synthesis state. -/
structure AudioState (K : Type) where
  melody_phase : K
  bass_phase : K
  arp_phase : K
  sample_pos : Int
  note_duration : Int

/-- Line 42: `static AudioState audio_state = {0};`. -/
def audio_state_init (K : Type) [Zero K] : AudioState K :=
  { melody_phase := 0, bass_phase := 0, arp_phase := 0, sample_pos := 0, note_duration := 0 }

/-! ## Integer conversions -/

/-- Conversion of an `int` to the 64-bit unsigned `size_t`. -/
def to_size_t (n : Int) : Int := n % 2 ^ 64

/-- Conversion of an integer value to the 32-bit signed `int` (two's complement). -/
def to_int (n : Int) : Int := (n + 2 ^ 31) % 2 ^ 32 - 2 ^ 31

/-- Reading `table[i]` for an `int` index; an index outside the table reads as `0`. -/
def table_at (table : List ℚ) (i : Int) : ℚ :=
  if 0 ≤ i then table.getD i.toNat 0 else 0

/-! ## The sequencer (lines 48-60) -/

/-- Line 48: `int num_samples = len / sizeof(Sint16);` (the division is done in `size_t`). -/
def num_samples (len : Int) : Int := to_int (to_size_t len / SIZEOF_SINT16)

/-- Line 50: `int samples_per_note = SAMPLE_RATE / 6;`. -/
def samples_per_note : Int := Int.tdiv SAMPLE_RATE 6

/-- Line 53: `int note_idx = audio_state.sample_pos / samples_per_note;`. -/
def note_idx (sample_pos : Int) : Int := Int.tdiv sample_pos samples_per_note

/-- Line 54: `int melody_idx = note_idx % MELODY_LEN;` (the remainder is taken in `size_t`). -/
def melody_idx (ni : Int) : Int := to_int (to_size_t ni % MELODY_LEN)

/-- Line 55: `int bass_idx = (note_idx / 2) % BASS_LEN;` (the remainder is taken in `size_t`). -/
def bass_idx (ni : Int) : Int := to_int (to_size_t (Int.tdiv ni 2) % BASS_LEN)

/-- Line 60: `int pos_in_note = audio_state.sample_pos % samples_per_note;`. -/
def pos_in_note (sample_pos : Int) : Int := Int.tmod sample_pos samples_per_note

section Field

variable {K : Type} [LinearOrderedField K] [FloorRing K]

/-- Line 57: `double melody_freq = melody_notes[melody_idx];`. -/
def melody_freq (sample_pos : Int) : K :=
  ((table_at melody_notes (melody_idx (note_idx sample_pos)) : ℚ) : K)

/-- Line 58: `double bass_freq = bass_notes[bass_idx];`. -/
def bass_freq (sample_pos : Int) : K :=
  ((table_at bass_notes (bass_idx (note_idx sample_pos)) : ℚ) : K)

/-- Line 74: `double arp_freq = melody_freq * (1 + (note_idx % 3));`. -/
def arp_freq (sample_pos : Int) : K :=
  melody_freq sample_pos * (((1 + Int.tmod (note_idx sample_pos) 3 : Int)) : K)

/-! ## The envelope (lines 61-66) -/

/-- Lines 61-66, with the note length `spn` (`samples_per_note` in the source) and the
position in the note `pin` as arguments. -/
def envelope (pin spn : Int) : K :=
  if pin < Int.tdiv spn 20 then
    (pin : K) / ((Int.tdiv spn 20 : Int) : K)
  else if pin > Int.tdiv (spn * 3) 4 then
    1 - ((pin - Int.tdiv (spn * 3) 4 : Int) : K) / ((Int.tdiv spn 4 : Int) : K)
  else
    1

/-! ## The voices and the mixer (lines 68-78) -/

/-- Conversion of a `double` to an integer type: the fractional part is discarded. -/
def trunc_to_int (x : K) : Int := if 0 ≤ x then ⌊x⌋ else ⌈x⌉

/-- The libm function `fmod`: `x - n * y` with `n` the quotient `x / y` truncated toward zero. -/
def fmod (x y : K) : K := x - ((trunc_to_int (x / y) : Int) : K) * y

/-- Lines 68-69: the melody voice. -/
def melody_sample (sn : K → K) (s : AudioState K) : K :=
  sn s.melody_phase * 0.3 + sn (s.melody_phase * 2) * 0.1

/-- Lines 71-72: the bass voice. -/
def bass_sample (sn : K → K) (s : AudioState K) : K :=
  sn s.bass_phase * 0.25
    + (if fmod s.bass_phase (2 * (M_PI : K)) < (M_PI : K) then 0.1 else -0.1) * 0.15

/-- Line 75: the arpeggio voice. -/
def arp_sample (sn : K → K) (s : AudioState K) : K :=
  sn s.arp_phase * 0.08

/-- Line 77: `mixed = (melody_sample * envelope + bass_sample + arp_sample) * 0.6`. -/
def mixed (sn : K → K) (s : AudioState K) : K :=
  (melody_sample sn s * envelope (pos_in_note s.sample_pos) samples_per_note
    + bass_sample sn s + arp_sample sn s) * 0.6

/-- The cast `(Sint16)` of line 78. -/
def to_Sint16 (x : K) : Int := trunc_to_int x

/-- Line 78: the value stored in `samples[i]`. -/
def output_sample (sn : K → K) (s : AudioState K) : Int :=
  to_Sint16 (mixed sn s * 20000)

/-! ## The oscillator bank (lines 80-88) -/

/-- Lines 84-86: `if (phase > 2 * M_PI) phase -= 2 * M_PI;`. -/
def wrap_phase (phase : K) : K :=
  if phase > 2 * (M_PI : K) then phase - 2 * (M_PI : K) else phase

/-- Lines 80-82: `phase += 2 * M_PI * freq / SAMPLE_RATE`. -/
def phase_step (freq : K) : K := 2 * (M_PI : K) * freq / ((SAMPLE_RATE : Int) : K)

/-- Lines 80-88: the state after one iteration of the loop body, the phases advanced in exact
arithmetic (`advance_double` advances them in binary64 arithmetic).  The increment of line 88
wraps to 32 bits. -/
def advance (s : AudioState K) : AudioState K :=
  { melody_phase := wrap_phase (s.melody_phase + phase_step (melody_freq s.sample_pos))
    bass_phase := wrap_phase (s.bass_phase + phase_step (bass_freq s.sample_pos))
    arp_phase := wrap_phase (s.arp_phase + phase_step (arp_freq s.sample_pos))
    sample_pos := to_int (s.sample_pos + 1)
    note_duration := s.note_duration }

/-! ## The loop and the callback (lines 44-90) -/

/-- The result of running the loop: the stores `samples[i] = v` it performed, as pairs
`(i, v)` in the order they were performed, and the state it left. -/
structure Rendered (K : Type) where
  writes : List (Nat × Int)
  state : AudioState K

/-- Lines 52-89: `count` iterations of the loop, the loop variable starting at `i`. -/
def audio_loop (sn : K → K) : Nat → Nat → AudioState K → Rendered K
  | _, 0, s => { writes := [], state := s }
  | i, count + 1, s =>
    let rest := audio_loop sn (i + 1) count (advance s)
    { writes := (i, output_sample sn s) :: rest.writes, state := rest.state }

/-- Lines 44-90: `audio_callback(userdata, stream, len)` run on the state `s`.  The loop
`for (i = 0; i < num_samples; i++)` makes `num_samples` iterations, none when `num_samples`
is not positive. -/
def audio_callback (sn : K → K) (s : AudioState K) (len : Int) : Rendered K :=
  audio_loop sn 0 (num_samples len).toNat s

/-- The sample values written by a run, in the order of writing. -/
def Rendered.samples (r : Rendered K) : List Int := r.writes.map Prod.snd

/-- The slots written by a run, in the order of writing. -/
def Rendered.slots (r : Rendered K) : List Nat := r.writes.map Prod.fst

/-- Successive calls of `audio_callback` with the byte lengths `lens`, each starting from the
state the previous one left: the samples of all calls in order, and the final state. -/
def successive_calls (sn : K → K) : AudioState K → List Int → List Int × AudioState K
  | s, [] => ([], s)
  | s, len :: lens =>
    let r := audio_callback sn s len
    let rest := successive_calls sn r.state lens
    (r.samples ++ rest.1, rest.2)

/-- The state after `n` samples have been rendered from `s`. -/
def run (n : Nat) (s : AudioState K) : AudioState K := advance^[n] s

end Field

/-! ## The oscillator bank in binary64 arithmetic (lines 80-88) -/

section Binary64

variable {K : Type} [LinearOrderedField K] [FloorRing K]

/-- The integer nearest to `m`; of two nearest integers, the even one. -/
def round_half_even (m : K) : Int :=
  if m - (⌊m⌋ : K) < 1 / 2 then ⌊m⌋
  else if 1 / 2 < m - (⌊m⌋ : K) then ⌊m⌋ + 1
  else if ⌊m⌋ % 2 = 0 then ⌊m⌋ else ⌊m⌋ + 1

/-- The number with 53 significant bits nearest to `x`, ties to even: the value a `double`
operation with exact result `x` returns.  The exponent is not limited; the computations of
lines 80-88 neither overflow nor produce a subnormal number that is not exact. -/
def round_binary64 (x : K) : K :=
  if x = 0 then 0
  else (round_half_even (x / (2 : K) ^ (Int.log 2 |x| - 52)) : K)
    * (2 : K) ^ (Int.log 2 |x| - 52)

/-- The `double` that the literal of line 8 denotes. -/
def M_PI_double : K := round_binary64 ((M_PI : ℚ) : K)

/-- The value of the expression `2 * M_PI` of lines 80-86. -/
def two_M_PI_double : K := round_binary64 (2 * (M_PI_double : K))

/-- Line 57, with the `double` that the table literal denotes. -/
def melody_freq_double (sample_pos : Int) : K := round_binary64 (melody_freq sample_pos)

/-- Line 58, with the `double` that the table literal denotes. -/
def bass_freq_double (sample_pos : Int) : K := round_binary64 (bass_freq sample_pos)

/-- Line 74: `melody_freq * (1 + (note_idx % 3))`, the `int` factor converted to `double`. -/
def arp_freq_double (sample_pos : Int) : K :=
  round_binary64
    (melody_freq_double sample_pos * (((1 + Int.tmod (note_idx sample_pos) 3 : Int)) : K))

/-- Lines 80-82: the value of `2 * M_PI * freq / SAMPLE_RATE`. -/
def phase_step_double (freq : K) : K :=
  round_binary64 (round_binary64 (two_M_PI_double * freq) / ((SAMPLE_RATE : Int) : K))

/-- Lines 80-86 for one oscillator, with `rnd` the rounding of the arithmetic, `T` the value
of `2 * M_PI`, `x` the phase and `d` the value of `2 * M_PI * freq / SAMPLE_RATE`: the phase
after `phase += d; if (phase > T) phase -= T;`. -/
def oscillator_step {K : Type} [LinearOrderedField K] (rnd : K → K) (T x d : K) : K :=
  if rnd (x + d) > T then rnd (rnd (x + d) - T) else rnd (x + d)

/-- Lines 84-86: `if (phase > 2 * M_PI) phase -= 2 * M_PI;`. -/
def wrap_phase_double (phase : K) : K :=
  if phase > two_M_PI_double then round_binary64 (phase - two_M_PI_double) else phase

/-- Lines 80-88 in binary64 arithmetic: the state after one iteration of the loop body. -/
def advance_double (s : AudioState K) : AudioState K :=
  { melody_phase := wrap_phase_double
      (round_binary64 (s.melody_phase + phase_step_double (melody_freq_double s.sample_pos)))
    bass_phase := wrap_phase_double
      (round_binary64 (s.bass_phase + phase_step_double (bass_freq_double s.sample_pos)))
    arp_phase := wrap_phase_double
      (round_binary64 (s.arp_phase + phase_step_double (arp_freq_double s.sample_pos)))
    sample_pos := to_int (s.sample_pos + 1)
    note_duration := s.note_duration }

/-- The state after `n` samples have been rendered from `s`, in binary64 arithmetic. -/
def run_double (n : Nat) (s : AudioState K) : AudioState K := advance_double^[n] s

end Binary64

/-! ## Reference definitions

The definitions of this section are not translations of source lines.  They write down what
the specification says, to be compared with the definitions above. -/

/-- The melody frequency the sequencer assigns to sample position `p`, as the specification
writes it: `melody_notes[(p / 7350) mod 32]`. -/
def melody_freq_at (p : Nat) : ℚ := melody_notes.getD ((p / 7350) % 32) 0

/-- The bass frequency the sequencer assigns to sample position `p`, as the specification
writes it: `bass_notes[((p / 7350) / 2) mod 16]`. -/
def bass_freq_at (p : Nat) : ℚ := bass_notes.getD (((p / 7350) / 2) % 16) 0

/-- The `double` of the melody table that the sequencer assigns to sample position `p`. -/
def melody_value_at (p : Nat) : ℚ := round_binary64 (melody_freq_at p)

/-- The `double` of the bass table that the sequencer assigns to sample position `p`. -/
def bass_value_at (p : Nat) : ℚ := round_binary64 (bass_freq_at p)

/-- The arpeggio frequency at sample position `p`: the `double` of the melody table times
`1 + (p / 7350) mod 3`, the product taken exactly. -/
def arp_value_at (p : Nat) : ℚ := melody_value_at p * ((1 + (p / 7350) % 3 : Nat) : ℚ)

/-- The sum over `p` in `[0, P)` of `f p / 44100`: the number of turns an oscillator of
frequency `f p` at sample position `p` has made after `P` samples. -/
def phase_turns (f : Nat → ℚ) (P : Nat) : ℚ := ∑ p in Finset.range P, f p / 44100

theorem samples_per_note_eq : samples_per_note = 7350 := by decide

theorem MELODY_LEN_eq : MELODY_LEN = 32 := by decide

theorem BASS_LEN_eq : BASS_LEN = 16 := by decide

theorem note_idx_of_nonneg {p : Int} (hp : 0 ≤ p) : note_idx p = p / 7350 := by
  unfold note_idx
  rw [samples_per_note_eq, Int.tdiv_eq_ediv hp (by decide)]

theorem pos_in_note_of_nonneg {p : Int} (hp : 0 ≤ p) : pos_in_note p = p % 7350 := by
  unfold pos_in_note
  rw [samples_per_note_eq, Int.tmod_eq_emod hp (by decide)]

theorem melody_idx_eq (ni : Int) : melody_idx ni = ni % 32 := by
  unfold melody_idx to_int to_size_t
  rw [MELODY_LEN_eq]
  omega

theorem bass_idx_of_nonneg {ni : Int} (h : 0 ≤ ni) : bass_idx ni = (ni / 2) % 16 := by
  unfold bass_idx to_int to_size_t
  rw [BASS_LEN_eq, Int.tdiv_eq_ediv h (by decide)]
  omega

theorem num_samples_of_nonneg {len : Int} (h0 : 0 ≤ len) (h1 : len ≤ 2147483647) :
    num_samples len = len / 2 := by
  unfold num_samples to_int to_size_t SIZEOF_SINT16
  omega

theorem envelope_mem {K : Type} [LinearOrderedField K] {pin spn : Int} (h1 : 1 ≤ spn) (h0 : 0 ≤ pin) (h2 : pin < spn) :
    (0 : K) ≤ envelope pin spn ∧ (envelope pin spn : K) ≤ 1 := by
  have ha : Int.tdiv spn 20 = spn / 20 := Int.tdiv_eq_ediv (by omega) (by decide)
  have hb : Int.tdiv (spn * 3) 4 = spn * 3 / 4 := Int.tdiv_eq_ediv (by omega) (by decide)
  have hc : Int.tdiv spn 4 = spn / 4 := Int.tdiv_eq_ediv (by omega) (by decide)
  unfold envelope
  rw [ha, hb, hc]
  split_ifs with h3 h4
  · have hpos : (0 : K) < ((spn / 20 : Int) : K) := by exact_mod_cast (by omega : 0 < spn / 20)
    have hle : (pin : K) ≤ ((spn / 20 : Int) : K) := by exact_mod_cast (by omega : pin ≤ spn / 20)
    have hnn : (0 : K) ≤ (pin : K) := by exact_mod_cast h0
    exact ⟨div_nonneg hnn hpos.le, (div_le_one hpos).2 hle⟩
  · have hpos : (0 : K) < ((spn / 4 : Int) : K) := by exact_mod_cast (by omega : 0 < spn / 4)
    have hle : ((pin - spn * 3 / 4 : Int) : K) ≤ ((spn / 4 : Int) : K) := by
      exact_mod_cast (by omega : pin - spn * 3 / 4 ≤ spn / 4)
    have hnn : (0 : K) ≤ ((pin - spn * 3 / 4 : Int) : K) := by
      exact_mod_cast (by omega : 0 ≤ pin - spn * 3 / 4)
    have hq1 := (div_le_one hpos).2 hle
    have hq0 := div_nonneg hnn hpos.le
    constructor <;> linarith
  · exact ⟨zero_le_one, le_refl 1⟩

/-- C6. For every `k ≥ 0` with `k * 7350` representable as an `int`, at sample position
`k * 7350` the sequencer yields note index `k`, melody index `k mod 32` and bass index
`(k / 2) mod 16`; both are valid positions of their tables, and at `k = 32` both are `0`. -/
theorem sequencer_at_note_start (k : Int) (h0 : 0 ≤ k) (hmax : k * 7350 ≤ 2147483647) :
    note_idx (k * 7350) = k
      ∧ melody_idx (note_idx (k * 7350)) = k % 32
      ∧ bass_idx (note_idx (k * 7350)) = (k / 2) % 16
      ∧ (0 ≤ melody_idx (note_idx (k * 7350)) ∧ melody_idx (note_idx (k * 7350)) < MELODY_LEN)
      ∧ (0 ≤ bass_idx (note_idx (k * 7350)) ∧ bass_idx (note_idx (k * 7350)) < BASS_LEN)
      ∧ melody_idx (note_idx (32 * 7350)) = 0
      ∧ bass_idx (note_idx (32 * 7350)) = 0 := by
  have hk : note_idx (k * 7350) = k := by
    rw [note_idx_of_nonneg (by omega)]; omega
  have h32 : note_idx (32 * 7350) = 32 := by
    rw [note_idx_of_nonneg (by decide)]; decide
  rw [hk, h32, melody_idx_eq, melody_idx_eq, bass_idx_of_nonneg h0,
    bass_idx_of_nonneg (by decide), MELODY_LEN_eq, BASS_LEN_eq]
  omega

/-- C6, witness: the note that starts at sample position `33 * 7350`. -/
theorem sequencer_at_note_start_witness :
    (0 : Int) ≤ 33 ∧ (33 : Int) * 7350 ≤ 2147483647
      ∧ note_idx (33 * 7350) = 33
      ∧ melody_idx (note_idx (33 * 7350)) = 33 % 32
      ∧ bass_idx (note_idx (33 * 7350)) = (33 / 2) % 16 :=
  ⟨by decide, by decide,
    (sequencer_at_note_start 33 (by decide) (by decide)).1,
    (sequencer_at_note_start 33 (by decide) (by decide)).2.1,
    (sequencer_at_note_start 33 (by decide) (by decide)).2.2.1⟩

/-! ## The envelope -/

/-- C4. For every note length `spn ≥ 1` and every position `0 ≤ pos < spn`, the envelope of
lines 61-66 is well defined: the integer denominator of the ramp branch that is taken
(`spn / 20` for the attack, `spn / 4` for the release) is not zero; and its value lies in
the closed interval `[0, 1]`. -/
theorem envelope_well_defined (spn pos : Int) (hspn : 1 ≤ spn) (h0 : 0 ≤ pos)
    (h1 : pos < spn) :
    (pos < Int.tdiv spn 20 → Int.tdiv spn 20 ≠ 0)
      ∧ (¬ pos < Int.tdiv spn 20 → pos > Int.tdiv (spn * 3) 4 → Int.tdiv spn 4 ≠ 0)
      ∧ (0 : ℝ) ≤ envelope pos spn ∧ (envelope pos spn : ℝ) ≤ 1 := by
  have ha : Int.tdiv spn 20 = spn / 20 := Int.tdiv_eq_ediv (by omega) (by decide)
  have hb : Int.tdiv (spn * 3) 4 = spn * 3 / 4 := Int.tdiv_eq_ediv (by omega) (by decide)
  have hc : Int.tdiv spn 4 = spn / 4 := Int.tdiv_eq_ediv (by omega) (by decide)
  refine ⟨?_, ?_, envelope_mem hspn h0 h1⟩
  · rw [ha]; omega
  · rw [ha, hb, hc]; omega

/-- C4, witness: the last position of a note of the length the program uses. -/
theorem envelope_well_defined_witness :
    (1 : Int) ≤ samples_per_note ∧ (0 : Int) ≤ 7349 ∧ (7349 : Int) < samples_per_note
      ∧ Int.tdiv samples_per_note 4 ≠ 0
      ∧ (0 : ℝ) ≤ envelope 7349 samples_per_note
      ∧ (envelope 7349 samples_per_note : ℝ) ≤ 1 :=
  ⟨by decide, by decide, by decide,
    (envelope_well_defined samples_per_note 7349 (by decide) (by decide) (by decide)).2.1
      (by decide) (by decide),
    (envelope_well_defined samples_per_note 7349 (by decide) (by decide) (by decide)).2.2⟩

theorem envelope_sustain {K : Type} [LinearOrderedField K] {p : Int} (h1 : 367 ≤ p)
    (h2 : p ≤ 5512) : (envelope p 7350 : K) = 1 := by
  have ha : Int.tdiv 7350 20 = 367 := by decide
  have hb : Int.tdiv (7350 * 3) 4 = 5512 := by decide
  unfold envelope
  rw [ha, hb, if_neg (by omega), if_neg (by omega)]

/-- C8. With sample rate 44100 the note length is 7350 samples, and the envelope computed by
`audio_callback` is `0` at position 0, `0` at position 7349 (the last sample of a note) and
exactly `1` at every position `p` with `367 ≤ p ≤ 5512`, among them the mid-note position
3675, where the melody and bass frequencies are the table entries of index 0, 164.81 and
82.41. -/
theorem envelope_boundaries (p : Int) (h1 : 367 ≤ p) (h2 : p ≤ 5512) :
    samples_per_note = 7350
      ∧ (envelope (pos_in_note 0) samples_per_note : ℝ) = 0
      ∧ (envelope (pos_in_note 7349) samples_per_note : ℝ) = 0
      ∧ (envelope (pos_in_note p) samples_per_note : ℝ) = 1
      ∧ (envelope (pos_in_note 3675) samples_per_note : ℝ) = 1
      ∧ (melody_freq 3675 : ℝ) = 164.81
      ∧ (bass_freq 3675 : ℝ) = 82.41 := by
  have ha : Int.tdiv 7350 20 = 367 := by decide
  have hb : Int.tdiv (7350 * 3) 4 = 5512 := by decide
  have hc : Int.tdiv 7350 4 = 1837 := by decide
  have hp : pos_in_note p = p := by rw [pos_in_note_of_nonneg (by omega)]; omega
  have h0 : pos_in_note 0 = 0 := by decide
  have h7349 : pos_in_note 7349 = 7349 := by decide
  have h3675 : pos_in_note 3675 = 3675 := by decide
  have hn : note_idx 3675 = 0 := by decide
  refine ⟨samples_per_note_eq, ?_, ?_, ?_, ?_, ?_, ?_⟩
  · rw [h0, samples_per_note_eq]
    unfold envelope
    rw [ha, if_pos (by decide)]
    simp
  · rw [h7349, samples_per_note_eq]
    unfold envelope
    rw [ha, hb, hc, if_neg (by decide), if_pos (by decide)]
    norm_num
  · rw [hp, samples_per_note_eq]; exact envelope_sustain h1 h2
  · rw [h3675, samples_per_note_eq]; exact envelope_sustain (by decide) (by decide)
  · unfold melody_freq
    rw [hn]
    have : table_at melody_notes (melody_idx 0) = 164.81 := by
      simp [table_at, melody_idx_eq, melody_notes]
    rw [this]; norm_num
  · unfold bass_freq
    rw [hn]
    have : table_at bass_notes (bass_idx 0) = 82.41 := by
      simp [table_at, bass_idx_of_nonneg, bass_notes]
    rw [this]; norm_num

/-- C8, witness: the mid-note position 3675. -/
theorem envelope_boundaries_witness :
    (367 : Int) ≤ 3675 ∧ (3675 : Int) ≤ 5512
      ∧ (envelope (pos_in_note 3675) samples_per_note : ℝ) = 1 :=
  ⟨by decide, by decide, (envelope_boundaries 3675 (by decide) (by decide)).2.2.2.1⟩

/-! ## The loop -/

section Run

variable {K : Type} [LinearOrderedField K]

theorem run_zero (s : AudioState K) : run 0 s = s := rfl

theorem run_succ (n : Nat) (s : AudioState K) : run (n + 1) s = run n (advance s) := rfl

theorem run_succ_outer (n : Nat) (s : AudioState K) : run (n + 1) s = advance (run n s) :=
  Function.iterate_succ_apply' advance n s

theorem run_add (a b : Nat) (s : AudioState K) : run (a + b) s = run b (run a s) := by
  unfold run
  rw [Nat.add_comm, Function.iterate_add_apply]

theorem to_int_of_range {n : Int} (h1 : -2147483648 ≤ n) (h2 : n ≤ 2147483647) :
    to_int n = n := by
  unfold to_int
  omega

theorem run_sample_pos (n : Nat) (s : AudioState K) (h1 : -2147483648 ≤ s.sample_pos)
    (h2 : s.sample_pos + n ≤ 2147483647) : (run n s).sample_pos = s.sample_pos + n := by
  induction n with
  | zero => simp [run_zero]
  | succ n ih =>
    rw [run_succ_outer]
    show to_int ((run n s).sample_pos + 1) = _
    rw [ih (by push_cast at h2; omega), to_int_of_range (by omega) (by push_cast at h2; omega)]
    push_cast; ring

theorem run_note_duration (n : Nat) (s : AudioState K) :
    (run n s).note_duration = s.note_duration := by
  induction n with
  | zero => rfl
  | succ n ih => rw [run_succ_outer]; exact ih

end Run

section Loop

variable {K : Type} [LinearOrderedField K] [FloorRing K]

theorem audio_loop_state (sn : K → K) (i n : Nat) (s : AudioState K) :
    (audio_loop sn i n s).state = run n s := by
  induction n generalizing i s with
  | zero => rfl
  | succ n ih =>
    show (audio_loop sn (i + 1) n (advance s)).state = _
    rw [ih, run_succ]

theorem audio_loop_writes (sn : K → K) (i n : Nat) (s : AudioState K) :
    (audio_loop sn i n s).writes
      = (List.range n).map (fun j => (i + j, output_sample sn (run j s))) := by
  induction n generalizing i s with
  | zero => rfl
  | succ n ih =>
    show (i, output_sample sn s) :: (audio_loop sn (i + 1) n (advance s)).writes = _
    rw [ih, List.range_succ_eq_map, List.map_cons, List.map_map]
    refine congrArg₂ List.cons rfl (List.map_congr_left ?_)
    intro j _
    simp only [Function.comp_apply, run_succ, Prod.mk.injEq, and_true]
    omega

theorem audio_loop_samples (sn : K → K) (i n : Nat) (s : AudioState K) :
    (audio_loop sn i n s).samples = (List.range n).map (fun j => output_sample sn (run j s)) := by
  unfold Rendered.samples
  rw [audio_loop_writes, List.map_map]
  rfl

theorem audio_loop_slots (sn : K → K) (i n : Nat) (s : AudioState K) :
    (audio_loop sn i n s).slots = (List.range n).map (fun j => i + j) := by
  unfold Rendered.slots
  rw [audio_loop_writes, List.map_map]
  rfl

theorem samples_add (sn : K → K) (a b : Nat) (s : AudioState K) :
    (List.range (a + b)).map (fun j => output_sample sn (run j s))
      = (List.range a).map (fun j => output_sample sn (run j s))
        ++ (List.range b).map (fun j => output_sample sn (run j (run a s))) := by
  rw [List.range_add, List.map_append, List.map_map]
  refine congrArg₂ (· ++ ·) rfl (List.map_congr_left ?_)
  intro j _
  simp only [Function.comp_apply, run_add]

theorem successive_single_calls (sn : K → K) (n : Nat) (s : AudioState K) :
    successive_calls sn s (List.replicate n 2)
      = ((List.range n).map (fun j => output_sample sn (run j s)), run n s) := by
  induction n generalizing s with
  | zero => rfl
  | succ n ih =>
    have h1 : (num_samples 2).toNat = 1 := by decide
    show ((audio_callback sn s 2).samples
        ++ (successive_calls sn (audio_callback sn s 2).state (List.replicate n 2)).1,
      (successive_calls sn (audio_callback sn s 2).state (List.replicate n 2)).2) = _
    unfold audio_callback
    rw [h1, audio_loop_state, audio_loop_samples, ih, Nat.add_comm n 1, samples_add, run_add]

end Loop

/-- C1. For every engine state `s` with `sample_pos ≥ 0` and all sample counts `a, b ≥ 0`
that cause no `int` overflow: running `audio_callback` for `a` samples from `s` and then for
`b` samples from the state this leaves produces, concatenated, the same sample sequence and
the same final state as one run of `a + b` samples from `s`; and `a + b` successive calls of
one sample each (2 bytes) produce that sequence and that state too. -/
theorem callback_split {K : Type} [LinearOrderedField K] [FloorRing K] (sn : K → K)
    (s : AudioState K) (a b : Int) (ha : 0 ≤ a) (hb : 0 ≤ b) (_hpos : 0 ≤ s.sample_pos)
    (_hov : s.sample_pos + a + b ≤ 2147483647) (hlen : 2 * (a + b) ≤ 2147483647) :
    (audio_callback sn s (2 * a)).samples
        ++ (audio_callback sn (audio_callback sn s (2 * a)).state (2 * b)).samples
        = (audio_callback sn s (2 * (a + b))).samples
      ∧ (audio_callback sn (audio_callback sn s (2 * a)).state (2 * b)).state
        = (audio_callback sn s (2 * (a + b))).state
      ∧ successive_calls sn s (List.replicate (a + b).toNat 2)
        = ((audio_callback sn s (2 * (a + b))).samples,
            (audio_callback sn s (2 * (a + b))).state) := by
  have h1 : (num_samples (2 * a)).toNat = a.toNat := by
    rw [num_samples_of_nonneg (by omega) (by omega)]; congr 1; omega
  have h2 : (num_samples (2 * b)).toNat = b.toNat := by
    rw [num_samples_of_nonneg (by omega) (by omega)]; congr 1; omega
  have h3 : (num_samples (2 * (a + b))).toNat = a.toNat + b.toNat := by
    rw [num_samples_of_nonneg (by omega) (by omega)]; omega
  have h4 : (a + b).toNat = a.toNat + b.toNat := by omega
  unfold audio_callback
  rw [h1, h2, h3, h4]
  simp only [audio_loop_state, audio_loop_samples, successive_single_calls]
  exact ⟨(samples_add sn _ _ s).symm, (run_add _ _ s).symm, trivial⟩

/-- C1, witness: 3 samples and then 4 samples from the initial state. -/
theorem callback_split_witness :
    (audio_callback Real.sin (audio_state_init ℝ) (2 * 3)).samples
        ++ (audio_callback Real.sin
              (audio_callback Real.sin (audio_state_init ℝ) (2 * 3)).state (2 * 4)).samples
        = (audio_callback Real.sin (audio_state_init ℝ) (2 * (3 + 4))).samples :=
  (callback_split Real.sin (audio_state_init ℝ) 3 4 (by decide) (by decide) (by decide)
    (by decide) (by decide)).1

/-- C2, counterexample. In a state with `sample_pos = 2147483647` a request of 2 bytes
renders one sample and leaves `sample_pos = -2147483648`, which is not `sample_pos + 1`: the
increment of line 88 overflows. -/
theorem sample_pos_overflows :
    0 ≤ (2 : Int)
      ∧ (audio_callback Real.sin
          { melody_phase := 0, bass_phase := 0, arp_phase := 0, sample_pos := 2147483647,
            note_duration := 0 } 2).state.sample_pos = -2147483648
      ∧ (audio_callback Real.sin
          { melody_phase := 0, bass_phase := 0, arp_phase := 0, sample_pos := 2147483647,
            note_duration := 0 } 2).state.sample_pos ≠ 2147483647 + 2 / 2 := by
  have h : (audio_callback Real.sin
      { melody_phase := 0, bass_phase := 0, arp_phase := 0, sample_pos := 2147483647,
        note_duration := 0 } 2).state.sample_pos = -2147483648 := by
    have h1 : (num_samples 2).toNat = 1 := by decide
    unfold audio_callback
    rw [h1, audio_loop_state]
    show to_int (2147483647 + 1) = -2147483648
    decide
  refine ⟨by decide, h, ?_⟩
  rw [h]
  decide

/-- C2, amended. For every engine state and every byte length `len ≥ 0` (both `int`) such
that `sample_pos + len / 2` does not exceed 2147483647, `audio_callback` makes `n = len / 2`
stores: the `i`-th of them puts the sample computed from the state after `i` samples into
slot `i`, so that the slots written are `0, 1, ..., n - 1` in this order, each once; it
increases `sample_pos` by `n`; and when `n = 0` it stores nothing and leaves the state
unchanged. -/
theorem callback_fills_in_order {K : Type} [LinearOrderedField K] [FloorRing K] (sn : K → K)
    (s : AudioState K) (len : Int) (h0 : 0 ≤ len) (hmax : len ≤ 2147483647)
    (hmin : -2147483648 ≤ s.sample_pos) (hov : s.sample_pos + len / 2 ≤ 2147483647) :
    (audio_callback sn s len).writes
        = (List.range (len / 2).toNat).map (fun i => (i, output_sample sn (run i s)))
      ∧ (audio_callback sn s len).slots = List.range (len / 2).toNat
      ∧ (audio_callback sn s len).writes.length = (len / 2).toNat
      ∧ (audio_callback sn s len).state.sample_pos = s.sample_pos + len / 2
      ∧ (len / 2 = 0 → (audio_callback sn s len).writes = []
          ∧ (audio_callback sn s len).state = s) := by
  have hn : num_samples len = len / 2 := num_samples_of_nonneg h0 hmax
  have hnn : ((len / 2).toNat : Int) = len / 2 := Int.toNat_of_nonneg (by omega)
  unfold audio_callback
  rw [hn]
  refine ⟨?_, ?_, ?_, ?_, ?_⟩
  · rw [audio_loop_writes]; simp
  · rw [audio_loop_slots]; simp
  · rw [audio_loop_writes]; simp
  · rw [audio_loop_state, run_sample_pos _ _ hmin (by rw [hnn]; exact hov), hnn]
  · intro hz
    rw [hz]
    exact ⟨rfl, rfl⟩

/-- C2, witness: a request of 9 bytes on the initial state. -/
theorem callback_fills_in_order_witness :
    (audio_callback Real.sin (audio_state_init ℝ) 9).slots = List.range 4
      ∧ (audio_callback Real.sin (audio_state_init ℝ) 9).state.sample_pos = 4 :=
  ⟨(callback_fills_in_order Real.sin (audio_state_init ℝ) 9 (by decide) (by decide)
      (by decide) (by decide)).2.1,
    (callback_fills_in_order Real.sin (audio_state_init ℝ) 9 (by decide) (by decide)
      (by decide) (by decide)).2.2.2.1⟩

/-! ## The conversion to an integer sample -/

section Trunc

variable {K : Type} [LinearOrderedField K] [FloorRing K]

theorem trunc_to_int_abs_le (x : K) : |((trunc_to_int x : Int) : K)| ≤ |x| := by
  unfold trunc_to_int
  split_ifs with h
  · have h1 : (0 : K) ≤ ((⌊x⌋ : Int) : K) := by exact_mod_cast Int.floor_nonneg.2 h
    rw [abs_of_nonneg h1, abs_of_nonneg h]
    exact Int.floor_le x
  · have hx : x < 0 := lt_of_not_ge h
    have h1 : ((⌈x⌉ : Int) : K) ≤ 0 := by exact_mod_cast Int.ceil_le.2 (by simpa using hx.le)
    rw [abs_of_nonpos h1, abs_of_neg hx]
    exact neg_le_neg (Int.le_ceil x)

theorem trunc_to_int_bounds {x : K} {n : Int} (h : |x| ≤ (n : K)) :
    -n ≤ trunc_to_int x ∧ trunc_to_int x ≤ n := by
  have h1 := le_trans (trunc_to_int_abs_le x) h
  have h2 : |trunc_to_int x| ≤ n := by exact_mod_cast h1
  exact abs_le.1 h2

end Trunc

/-! ## The range of the mixed signal -/

theorem pos_in_note_range {p : Int} (hp : 0 ≤ p) :
    0 ≤ pos_in_note p ∧ pos_in_note p < 7350 := by
  rw [pos_in_note_of_nonneg hp]; omega

theorem abs_melody_sample_le (s : AudioState ℝ) : |melody_sample Real.sin s| ≤ 0.4 := by
  unfold melody_sample
  have h1 := Real.neg_one_le_sin s.melody_phase
  have h2 := Real.sin_le_one s.melody_phase
  have h3 := Real.neg_one_le_sin (s.melody_phase * 2)
  have h4 := Real.sin_le_one (s.melody_phase * 2)
  rw [abs_le]
  constructor <;> linarith

theorem abs_bass_sample_le (s : AudioState ℝ) : |bass_sample Real.sin s| ≤ 0.265 := by
  unfold bass_sample
  have h1 := Real.neg_one_le_sin s.bass_phase
  have h2 := Real.sin_le_one s.bass_phase
  rw [abs_le]
  split_ifs <;> constructor <;> linarith

theorem abs_arp_sample_le (s : AudioState ℝ) : |arp_sample Real.sin s| ≤ 0.08 := by
  unfold arp_sample
  have h1 := Real.neg_one_le_sin s.arp_phase
  have h2 := Real.sin_le_one s.arp_phase
  rw [abs_le]
  constructor <;> linarith

theorem abs_mixed_le (s : AudioState ℝ) (hpos : 0 ≤ s.sample_pos) :
    |mixed Real.sin s| ≤ 0.447 := by
  have hr := pos_in_note_range hpos
  have he : (0 : ℝ) ≤ envelope (pos_in_note s.sample_pos) 7350
      ∧ (envelope (pos_in_note s.sample_pos) 7350 : ℝ) ≤ 1 :=
    envelope_mem (by decide) hr.1 hr.2
  have hm := abs_le.1 (abs_melody_sample_le s)
  have hb := abs_le.1 (abs_bass_sample_le s)
  have ha := abs_le.1 (abs_arp_sample_le s)
  have hme : |melody_sample Real.sin s * envelope (pos_in_note s.sample_pos) 7350| ≤ 0.4 := by
    rw [abs_mul, abs_of_nonneg he.1]
    calc |melody_sample Real.sin s| * envelope (pos_in_note s.sample_pos) 7350
        ≤ 0.4 * 1 := mul_le_mul (abs_melody_sample_le s) he.2 he.1 (by norm_num)
      _ = 0.4 := by norm_num
  have hme2 := abs_le.1 hme
  unfold mixed
  rw [samples_per_note_eq, abs_le]
  constructor <;> linarith [hme2.1, hme2.2, hb.1, hb.2, ha.1, ha.2]

/-- C3. For every real value of the three phases and every sample position `P ≥ 0`, the
value `mixed` of line 77 satisfies `|mixed| * 20000 ≤ 10560`, hence
`|mixed| * 20000 ≤ 32767`, and the sample obtained by the cast of line 78 lies in
`[-32768, 32767]`. -/
theorem mixed_within_int16 (s : AudioState ℝ) (hpos : 0 ≤ s.sample_pos) :
    |mixed Real.sin s| * 20000 ≤ 10560
      ∧ |mixed Real.sin s| * 20000 ≤ 32767
      ∧ -32768 ≤ output_sample Real.sin s
      ∧ output_sample Real.sin s ≤ 32767 := by
  have h := abs_mixed_le s hpos
  have h1 : |mixed Real.sin s| * 20000 ≤ 10560 := by linarith
  have h2 : |mixed Real.sin s * 20000| ≤ ((32767 : Int) : ℝ) := by
    rw [abs_mul, abs_of_nonneg (by norm_num : (0 : ℝ) ≤ 20000)]
    push_cast
    linarith
  have h3 := trunc_to_int_bounds h2
  refine ⟨h1, by linarith, ?_, ?_⟩
  · unfold output_sample to_Sint16; omega
  · unfold output_sample to_Sint16; exact h3.2

/-- C3, witness: the initial state. -/
theorem mixed_within_int16_witness :
    |mixed Real.sin (audio_state_init ℝ)| * 20000 ≤ 10560
      ∧ |mixed Real.sin (audio_state_init ℝ)| * 20000 ≤ 32767
      ∧ -32768 ≤ output_sample Real.sin (audio_state_init ℝ)
      ∧ output_sample Real.sin (audio_state_init ℝ) ≤ 32767 :=
  mixed_within_int16 (audio_state_init ℝ) (by decide)

/-! ## The libm function `fmod` on a wrapped phase -/

section Phase

variable {K : Type} [LinearOrderedField K]

theorem melody_notes_range (i : Nat) (hi : i < 32) :
    0 < melody_notes.getD i 0 ∧ melody_notes.getD i 0 ≤ 300 := by
  interval_cases i <;> simp [melody_notes] <;> norm_num

theorem bass_notes_range (i : Nat) (hi : i < 16) :
    0 < bass_notes.getD i 0 ∧ bass_notes.getD i 0 ≤ 300 := by
  interval_cases i <;> simp [bass_notes] <;> norm_num

theorem melody_freq_natCast (p : Nat) :
    (melody_freq (p : Int) : K) = ((melody_freq_at p : ℚ) : K) := by
  have hi : ((p : Int) / 7350) % 32 = (((p / 7350) % 32 : Nat) : Int) := by omega
  unfold melody_freq melody_freq_at table_at
  rw [note_idx_of_nonneg (by omega), melody_idx_eq, hi, if_pos (by omega), Int.toNat_natCast]

theorem bass_freq_natCast (p : Nat) :
    (bass_freq (p : Int) : K) = ((bass_freq_at p : ℚ) : K) := by
  have hi : (((p : Int) / 7350) / 2) % 16 = ((((p / 7350) / 2) % 16 : Nat) : Int) := by omega
  unfold bass_freq bass_freq_at table_at
  rw [note_idx_of_nonneg (by omega), bass_idx_of_nonneg (by omega), hi, if_pos (by omega),
    Int.toNat_natCast]

end Phase

/-! ### The phases after `P` samples from the initial state, in exact arithmetic -/

section Closed

variable {K : Type} [LinearOrderedField K]

end Closed

/-! ## Rounding to binary64 -/

theorem two_zpow_pos {K : Type} [LinearOrderedField K] (e : Int) : (0 : K) < (2 : K) ^ e :=
  zpow_pos (by norm_num) e

section Rounding

variable {K : Type} [LinearOrderedField K] [FloorRing K]

theorem round_half_even_error (m : K) : |((round_half_even m : Int) : K) - m| ≤ 1 / 2 := by
  have h1 := Int.floor_le m
  have h2 := Int.lt_floor_add_one m
  unfold round_half_even
  rw [abs_le]
  split_ifs with ha hb hc <;> push_cast <;> constructor <;> linarith

theorem round_half_even_eq_of {m : K} {n : Int} (h : |m - n| < 1 / 2) :
    round_half_even m = n := by
  have h1 := abs_lt.1 h
  have hfl : ⌊m⌋ = n ∨ ⌊m⌋ = n - 1 := by
    have ha : n - 1 ≤ ⌊m⌋ := Int.le_floor.2 (by push_cast; linarith [h1.1])
    have hb : ⌊m⌋ < n + 1 := Int.floor_lt.2 (by push_cast; linarith [h1.2])
    omega
  unfold round_half_even
  rcases hfl with hf | hf
  · rw [hf, if_pos (by linarith [h1.2])]
  · have hlt : ¬ (m - ((n - 1 : Int) : K) < 1 / 2) := by push_cast; linarith [h1.1]
    have hgt : 1 / 2 < m - ((n - 1 : Int) : K) := by push_cast; linarith [h1.1]
    rw [hf, if_neg hlt, if_pos hgt]
    omega

/-- The relative error of one rounding is at most `2 ^ (-53)`. -/
theorem round_binary64_error (x : K) : |round_binary64 x - x| ≤ |x| / 2 ^ 53 := by
  unfold round_binary64
  split_ifs with h0
  · rw [h0]; simp
  · have hx : 0 < |x| := abs_pos.2 h0
    have hp : (0 : K) < (2 : K) ^ (Int.log 2 |x| - 52) := two_zpow_pos _
    have hlog : (2 : K) ^ Int.log 2 |x| ≤ |x| := by
      have := Int.zpow_log_le_self (b := 2) (by decide) hx
      simpa using this
    have hsplit : (2 : K) ^ (Int.log 2 |x| - 52) = (2 : K) ^ Int.log 2 |x| / 2 ^ 52 := by
      rw [zpow_sub₀ (by norm_num : (2 : K) ≠ 0)]
      norm_cast
    have herr := round_half_even_error (x / (2 : K) ^ (Int.log 2 |x| - 52))
    have heq : ((round_half_even (x / (2 : K) ^ (Int.log 2 |x| - 52)) : Int) : K)
          * (2 : K) ^ (Int.log 2 |x| - 52) - x
        = (((round_half_even (x / (2 : K) ^ (Int.log 2 |x| - 52)) : Int) : K)
            - x / (2 : K) ^ (Int.log 2 |x| - 52)) * (2 : K) ^ (Int.log 2 |x| - 52) := by
      field_simp
    rw [heq, abs_mul, abs_of_pos hp]
    calc |((round_half_even (x / (2 : K) ^ (Int.log 2 |x| - 52)) : Int) : K)
            - x / (2 : K) ^ (Int.log 2 |x| - 52)| * (2 : K) ^ (Int.log 2 |x| - 52)
        ≤ 1 / 2 * (2 : K) ^ (Int.log 2 |x| - 52) := mul_le_mul_of_nonneg_right herr hp.le
      _ = (2 : K) ^ Int.log 2 |x| / 2 ^ 53 := by rw [hsplit]; ring
      _ ≤ |x| / 2 ^ 53 := div_le_div_of_nonneg_right hlog (by positivity)

/-- Evaluation of a rounding: for `x` in the binade `[2 ^ e, 2 ^ (e + 1))` whose scaled value
is within less than `1 / 2` of the integer `n`, the result is `n * 2 ^ (e - 52)`. -/
theorem round_binary64_eq_of {x : K} {e n : Int} (h1 : (2 : K) ^ e ≤ x)
    (h2 : x < (2 : K) ^ (e + 1)) (hn : |x / (2 : K) ^ (e - 52) - n| < 1 / 2) :
    round_binary64 x = n * (2 : K) ^ (e - 52) := by
  have hx : 0 < x := lt_of_lt_of_le (two_zpow_pos e) h1
  have habs : |x| = x := abs_of_pos hx
  have hlog : Int.log 2 x = e := by
    have ha : e ≤ Int.log 2 x :=
      (Int.zpow_le_iff_le_log (b := 2) (by decide) hx).1 (by simpa using h1)
    have hb : Int.log 2 x < e + 1 :=
      (Int.lt_zpow_iff_log_lt (b := 2) (by decide) hx).1 (by simpa using h2)
    omega
  unfold round_binary64
  rw [if_neg hx.ne', habs, hlog, round_half_even_eq_of hn]

end Rounding

/-! ### The first sample in binary64 arithmetic -/

theorem M_PI_double_eq : (M_PI_double : ℚ) = 884279719003555 / 2 ^ 48 := by
  unfold M_PI_double M_PI
  rw [Rat.cast_id, round_binary64_eq_of (e := 1) (n := 7074237752028440) (by norm_num)
    (by norm_num) (by rw [abs_lt]; constructor <;> norm_num)]
  norm_num

theorem two_M_PI_double_eq : (two_M_PI_double : ℚ) = 884279719003555 / 2 ^ 47 := by
  unfold two_M_PI_double
  rw [M_PI_double_eq, round_binary64_eq_of (e := 2) (n := 7074237752028440) (by norm_num)
    (by norm_num) (by rw [abs_lt]; constructor <;> norm_num)]
  norm_num

theorem melody_freq_double_zero : (melody_freq_double 0 : ℚ) = 2899368181980201 / 2 ^ 44 := by
  have h : (melody_freq 0 : ℚ) = 164.81 := by
    have := melody_freq_natCast (K := ℚ) 0
    simp only [Nat.cast_zero] at this
    rw [this]
    simp [melody_freq_at, melody_notes]
  unfold melody_freq_double
  rw [h, round_binary64_eq_of (e := 7) (n := 5798736363960402) (by norm_num)
    (by norm_num) (by rw [abs_lt]; constructor <;> norm_num)]
  norm_num

theorem phase_step_double_melody_zero :
    phase_step_double (melody_freq_double 0 : ℚ) = 6768066025429085 / 2 ^ 58 := by
  have h1 : round_binary64 ((884279719003555 / 2 ^ 47 : ℚ) * (2899368181980201 / 2 ^ 44))
      = 4554316890280497 / 2 ^ 42 := by
    rw [round_binary64_eq_of (e := 10) (n := 4554316890280497) (by norm_num)
      (by norm_num) (by rw [abs_lt]; constructor <;> norm_num)]
    norm_num
  have h2 : round_binary64 ((4554316890280497 / 2 ^ 42 : ℚ) / ((44100 : Int) : ℚ))
      = 6768066025429085 / 2 ^ 58 := by
    rw [round_binary64_eq_of (e := -6) (n := 6768066025429085) (by norm_num)
      (by norm_num) (by rw [abs_lt]; constructor <;> norm_num)]
    norm_num
  unfold phase_step_double SAMPLE_RATE
  rw [two_M_PI_double_eq, melody_freq_double_zero, h1, h2]

/-- The melody phase after one sample from the initial state, in binary64 arithmetic. -/
theorem run_double_one_melody :
    (run_double 1 (audio_state_init ℚ)).melody_phase = 6768066025429085 / 2 ^ 58 := by
  show wrap_phase_double (round_binary64 ((0 : ℚ) + phase_step_double (melody_freq_double 0)))
    = _
  rw [phase_step_double_melody_zero, zero_add,
    round_binary64_eq_of (e := -6) (n := 6768066025429085) (by norm_num)
      (by norm_num) (by rw [abs_lt]; constructor <;> norm_num)]
  unfold wrap_phase_double
  rw [two_M_PI_double_eq, if_neg (by norm_num)]
  norm_num

/-! ## One oscillator under rounded arithmetic

The lemmas of this section hold for every rounding `rnd` whose relative error is at most
`2 ^ (-53)`; the identity (exact arithmetic) and `round_binary64` are two such roundings. -/

section RoundedOscillator

variable {K : Type} [LinearOrderedField K]

theorem rnd_bounds_of_nonneg {rnd : K → K} (hr : ∀ x, |rnd x - x| ≤ |x| / 2 ^ 53) {z : K}
    (hz : 0 ≤ z) : z - z / 2 ^ 53 ≤ rnd z ∧ rnd z ≤ z + z / 2 ^ 53 ∧ 0 ≤ rnd z := by
  have h := abs_le.1 (hr z)
  rw [abs_of_nonneg hz] at h
  have hsmall : z / 2 ^ 53 ≤ z := div_le_self hz (by norm_num)
  refine ⟨by linarith [h.1], by linarith [h.2], by linarith [h.1]⟩

theorem rnd_bounds_of_nonpos {rnd : K → K} (hr : ∀ x, |rnd x - x| ≤ |x| / 2 ^ 53) {z : K}
    (hz : z ≤ 0) : z + z / 2 ^ 53 ≤ rnd z ∧ rnd z ≤ z - z / 2 ^ 53 ∧ rnd z ≤ 0 := by
  have h := abs_le.1 (hr z)
  rw [abs_of_nonpos hz] at h
  have hsmall : -z / 2 ^ 53 ≤ -z := div_le_self (by linarith) (by norm_num)
  have hneg : -z / 2 ^ 53 = -(z / 2 ^ 53) := neg_div _ _
  refine ⟨by linarith [h.1], by linarith [h.2], by linarith [h.2]⟩

/-- The step never leaves a phase above `T`. -/
theorem oscillator_step_le {rnd : K → K} (hr : ∀ x, |rnd x - x| ≤ |x| / 2 ^ 53) {T x d : K}
    (hT : 6 ≤ T) (hx : x ≤ T) (hd : d ≤ 1 / 5) : oscillator_step rnd T x d ≤ T := by
  unfold oscillator_step
  split_ifs with h
  · have hz : 0 ≤ x + d := by
      by_contra hc
      have := (rnd_bounds_of_nonpos hr (le_of_not_ge hc)).2.2
      linarith
    have hy := (rnd_bounds_of_nonneg hr hz).2.1
    have hsm : (x + d) / 2 ^ 53 ≤ (x + d) / 2 := by
      apply div_le_div_of_nonneg_left hz (by norm_num) (by norm_num)
    have hw := (rnd_bounds_of_nonneg hr (by linarith : 0 ≤ rnd (x + d) - T)).2.1
    have hsm2 : (rnd (x + d) - T) / 2 ^ 53 ≤ (rnd (x + d) - T) :=
      div_le_self (by linarith) (by norm_num)
    linarith
  · exact le_of_not_gt h

/-- The step keeps a non-negative phase non-negative when the increment is non-negative. -/
theorem oscillator_step_nonneg {rnd : K → K} (hr : ∀ x, |rnd x - x| ≤ |x| / 2 ^ 53) {T x d : K}
    (hx : 0 ≤ x) (hd : 0 ≤ d) : 0 ≤ oscillator_step rnd T x d := by
  unfold oscillator_step
  have hy := (rnd_bounds_of_nonneg hr (add_nonneg hx hd)).2.2
  split_ifs with h
  · exact (rnd_bounds_of_nonneg hr (by linarith : 0 ≤ rnd (x + d) - T)).2.2
  · exact hy

/-- The step adds `d` and removes no or one `T`, up to a rounding error. -/
theorem oscillator_step_error {rnd : K → K} (hr : ∀ x, |rnd x - x| ≤ |x| / 2 ^ 53) {T x d : K}
    (hT : T ≤ 63 / 10) (hx0 : 0 ≤ x) (hx : x ≤ T) (hd0 : 0 ≤ d) (hd : d ≤ 1 / 5) :
    ∃ j : Int, |oscillator_step rnd T x d - (x + d - j * T)| ≤ 7 / 2 ^ 53 := by
  have hz : 0 ≤ x + d := add_nonneg hx0 hd0
  have hy := rnd_bounds_of_nonneg hr hz
  have hzs : (x + d) / 2 ^ 53 ≤ (13 / 2) / 2 ^ 53 :=
    div_le_div_of_nonneg_right (by linarith) (by norm_num)
  unfold oscillator_step
  split_ifs with h
  · have hw := rnd_bounds_of_nonneg hr (by linarith : 0 ≤ rnd (x + d) - T)
    have hws : (rnd (x + d) - T) / 2 ^ 53 ≤ (1 / 2) / 2 ^ 53 :=
      div_le_div_of_nonneg_right (by norm_num at hzs ⊢; linarith [hy.2.1]) (by norm_num)
    refine ⟨1, ?_⟩
    rw [abs_le]
    push_cast
    constructor <;> norm_num at hzs hws ⊢ <;> linarith [hy.1, hy.2.1, hw.1, hw.2.1]
  · refine ⟨0, ?_⟩
    rw [abs_le]
    push_cast
    constructor <;> norm_num at hzs ⊢ <;> linarith [hy.1, hy.2.1]

end RoundedOscillator

/-! ### The increment of lines 80-82 under rounded arithmetic -/

section RoundedStep

variable {K : Type} [LinearOrderedField K]

/-- The increment computed from a frequency `f` that is within one rounding of `F`, with
`0 ≤ F ≤ 900`, lies in `[0, 1 / 5]` and is within `2 ^ (-53)` of `T * F / 44100`. -/
theorem rounded_increment {rnd : K → K} (hr : ∀ x, |rnd x - x| ≤ |x| / 2 ^ 53) {T f F : K}
    (hT0 : 0 ≤ T) (hT : T ≤ 63 / 10) (hF0 : 0 ≤ F) (hF : F ≤ 900)
    (hf : |f - F| ≤ |F| / 2 ^ 53) :
    0 ≤ rnd (rnd (T * f) / 44100) ∧ rnd (rnd (T * f) / 44100) ≤ 1 / 5
      ∧ |rnd (rnd (T * f) / 44100) - T * F / 44100| ≤ 1 / 2 ^ 53 := by
  rw [abs_of_nonneg hF0] at hf
  have hf2 := abs_le.1 hf
  have hFs : F / 2 ^ 53 ≤ F := div_le_self hF0 (by norm_num)
  have hf0 : 0 ≤ f := by linarith [hf2.1]
  have hA0 : 0 ≤ T * F := mul_nonneg hT0 hF0
  have hA : T * F ≤ 5670 := by
    calc T * F ≤ 63 / 10 * 900 := mul_le_mul hT hF hF0 (by norm_num)
      _ = 5670 := by norm_num
  have ha0 : 0 ≤ T * f := mul_nonneg hT0 hf0
  have hau : T * f ≤ T * F + T * F / 2 ^ 53 := by
    have : T * f ≤ T * (F + F / 2 ^ 53) := mul_le_mul_of_nonneg_left (by linarith [hf2.2]) hT0
    calc T * f ≤ T * (F + F / 2 ^ 53) := this
      _ = T * F + T * F / 2 ^ 53 := by ring
  have hal : T * F - T * F / 2 ^ 53 ≤ T * f := by
    have : T * (F - F / 2 ^ 53) ≤ T * f := mul_le_mul_of_nonneg_left (by linarith [hf2.1]) hT0
    calc T * F - T * F / 2 ^ 53 = T * (F - F / 2 ^ 53) := by ring
      _ ≤ T * f := this
  have h1 := rnd_bounds_of_nonneg hr ha0
  have hb0 : 0 ≤ rnd (T * f) / 44100 := div_nonneg h1.2.2 (by norm_num)
  have h2 := rnd_bounds_of_nonneg hr hb0
  refine ⟨h2.2.2, ?_, ?_⟩
  · norm_num at hau hal h1 h2 ⊢
    linarith [h1.1, h1.2.1, h2.1, h2.2.1]
  · rw [abs_le]
    constructor <;> norm_num at hau hal h1 h2 ⊢ <;> linarith [h1.1, h1.2.1, h2.1, h2.2.1]

/-- An oscillator that starts at `0` and is advanced `N` times with increments in
`[0, 1 / 5]` stays in `[0, T]`. -/
theorem rounded_oscillator_mem {rnd : K → K} (hr : ∀ x, |rnd x - x| ≤ |x| / 2 ^ 53) {T : K}
    (hT : 6 ≤ T) (x d : Nat → K) (N : Nat) (h0 : x 0 = 0)
    (hs : ∀ P, P < N → x (P + 1) = oscillator_step rnd T (x P) (d P))
    (hd : ∀ P, P < N → 0 ≤ d P ∧ d P ≤ 1 / 5) (P : Nat) (hP : P ≤ N) :
    0 ≤ x P ∧ x P ≤ T := by
  induction P with
  | zero => rw [h0]; exact ⟨le_refl 0, by linarith⟩
  | succ P ih =>
    have hx := ih (by omega)
    rw [hs P (by omega)]
    exact ⟨oscillator_step_nonneg hr hx.1 (hd P (by omega)).1,
      oscillator_step_le hr hT hx.2 (hd P (by omega)).2⟩

/-- An oscillator that starts at `0` and is advanced `N` times with increments in
`[0, 1 / 5]`, each within `2 ^ (-53)` of `D p`, has after `P ≤ N` steps the phase
`D 0 + ... + D (P - 1)` less a whole number of `T`, up to an error of `P / 2 ^ 50`. -/
theorem rounded_oscillator_closed_form {rnd : K → K} (hr : ∀ x, |rnd x - x| ≤ |x| / 2 ^ 53)
    {T : K} (hT : 6 ≤ T) (hT' : T ≤ 63 / 10) (x d D : Nat → K) (N : Nat) (h0 : x 0 = 0)
    (hs : ∀ P, P < N → x (P + 1) = oscillator_step rnd T (x P) (d P))
    (hd : ∀ P, P < N → 0 ≤ d P ∧ d P ≤ 1 / 5 ∧ |d P - D P| ≤ 1 / 2 ^ 53) (P : Nat)
    (hP : P ≤ N) :
    ∃ k : Int, |x P - (∑ p in Finset.range P, D p - k * T)| ≤ P / 2 ^ 50 := by
  induction P with
  | zero => exact ⟨0, by rw [h0]; simp⟩
  | succ P ih =>
    obtain ⟨k, hk⟩ := ih (by omega)
    have hx := rounded_oscillator_mem hr hT x d N h0 hs
      (fun p hp => ⟨(hd p hp).1, (hd p hp).2.1⟩) P (by omega)
    have hdP := hd P (by omega)
    obtain ⟨j, hj⟩ := oscillator_step_error hr hT' hx.1 hx.2 hdP.1 hdP.2.1
    refine ⟨k + j, ?_⟩
    rw [hs P (by omega), Finset.sum_range_succ]
    have h1 := abs_le.1 hk
    have h2 := abs_le.1 hj
    have h3 := abs_le.1 hdP.2.2
    rw [abs_le]
    push_cast
    constructor <;> norm_num at h1 h2 h3 ⊢ <;> linarith [h1.1, h1.2, h2.1, h2.2, h3.1, h3.2]

end RoundedStep

/-! ## The oscillator bank in binary64 arithmetic -/

/-! ### The frequencies at any sample position -/

theorem melody_notes_le (i : Nat) (hi : i < 32) : melody_notes.getD i 0 ≤ 294 := by
  interval_cases i <;> simp [melody_notes] <;> norm_num

theorem bass_idx_range (ni : Int) : 0 ≤ bass_idx ni ∧ bass_idx ni < 16 := by
  unfold bass_idx to_int to_size_t
  rw [BASS_LEN_eq]
  omega

theorem table_at_melody_range (i : Int) (h0 : 0 ≤ i) (h1 : i < 32) :
    0 < table_at melody_notes i ∧ table_at melody_notes i ≤ 294 := by
  unfold table_at
  rw [if_pos h0]
  have hi : i.toNat < 32 := by omega
  exact ⟨(melody_notes_range _ hi).1, melody_notes_le _ hi⟩

theorem table_at_bass_range (i : Int) (h0 : 0 ≤ i) (h1 : i < 16) :
    0 < table_at bass_notes i ∧ table_at bass_notes i ≤ 300 := by
  unfold table_at
  rw [if_pos h0]
  exact bass_notes_range _ (by omega)

theorem melody_freq_range (sp : Int) : (0 : ℚ) < melody_freq sp ∧ (melody_freq sp : ℚ) ≤ 294 := by
  unfold melody_freq
  rw [Rat.cast_id]
  exact table_at_melody_range _ (by rw [melody_idx_eq]; omega) (by rw [melody_idx_eq]; omega)

theorem bass_freq_range (sp : Int) : (0 : ℚ) < bass_freq sp ∧ (bass_freq sp : ℚ) ≤ 300 := by
  unfold bass_freq
  rw [Rat.cast_id]
  exact table_at_bass_range _ (bass_idx_range _).1 (bass_idx_range _).2

/-- A rounded value of a number in `[0, 300]` lies in `[0, 301]` and is `0` only for `0`. -/
theorem round_binary64_range {x b : ℚ} (h0 : 0 ≤ x) (h1 : x ≤ b) :
    0 ≤ round_binary64 x ∧ round_binary64 x ≤ b + b / 2 ^ 53
      ∧ x - x / 2 ^ 53 ≤ round_binary64 x := by
  have h := rnd_bounds_of_nonneg round_binary64_error h0
  have hb : x / 2 ^ 53 ≤ b / 2 ^ 53 := div_le_div_of_nonneg_right h1 (by norm_num)
  exact ⟨h.2.2, by linarith [h.2.1], h.1⟩

theorem melody_freq_double_range (sp : Int) :
    (0 : ℚ) ≤ melody_freq_double sp ∧ (melody_freq_double sp : ℚ) ≤ 295 := by
  have h := round_binary64_range (melody_freq_range sp).1.le (melody_freq_range sp).2
  unfold melody_freq_double
  refine ⟨h.1, ?_⟩
  have := h.2.1
  norm_num at this ⊢
  linarith

theorem bass_freq_double_range (sp : Int) :
    (0 : ℚ) ≤ bass_freq_double sp ∧ (bass_freq_double sp : ℚ) ≤ 301 := by
  have h := round_binary64_range (bass_freq_range sp).1.le (bass_freq_range sp).2
  unfold bass_freq_double
  refine ⟨h.1, ?_⟩
  have := h.2.1
  norm_num at this ⊢
  linarith

theorem two_M_PI_double_range : (6 : ℚ) ≤ two_M_PI_double ∧ (two_M_PI_double : ℚ) ≤ 63 / 10 := by
  rw [two_M_PI_double_eq]
  constructor <;> norm_num

theorem phase_step_double_eq (f : ℚ) :
    phase_step_double f = round_binary64 (round_binary64 (two_M_PI_double * f) / 44100) := by
  unfold phase_step_double SAMPLE_RATE
  norm_num

theorem to_int_succ (n : Int) : to_int (to_int n + 1) = to_int (n + 1) := by
  unfold to_int
  omega

theorem run_double_succ (n : Nat) (s : AudioState ℚ) :
    run_double (n + 1) s = advance_double (run_double n s) :=
  Function.iterate_succ_apply' advance_double n s

theorem run_double_sample_pos (P : Nat) :
    (run_double P (audio_state_init ℚ)).sample_pos = to_int P := by
  induction P with
  | zero => rfl
  | succ P ih =>
    rw [run_double_succ]
    show to_int ((run_double P (audio_state_init ℚ)).sample_pos + 1) = _
    rw [ih, to_int_succ]
    push_cast
    rfl

theorem run_double_succ_melody (P : Nat) :
    (run_double (P + 1) (audio_state_init ℚ)).melody_phase
      = oscillator_step round_binary64 two_M_PI_double
          (run_double P (audio_state_init ℚ)).melody_phase
          (phase_step_double (melody_freq_double (to_int P))) := by
  rw [run_double_succ, ← run_double_sample_pos P]
  rfl

theorem run_double_succ_bass (P : Nat) :
    (run_double (P + 1) (audio_state_init ℚ)).bass_phase
      = oscillator_step round_binary64 two_M_PI_double
          (run_double P (audio_state_init ℚ)).bass_phase
          (phase_step_double (bass_freq_double (to_int P))) := by
  rw [run_double_succ, ← run_double_sample_pos P]
  rfl

theorem run_double_succ_arp (P : Nat) :
    (run_double (P + 1) (audio_state_init ℚ)).arp_phase
      = oscillator_step round_binary64 two_M_PI_double
          (run_double P (audio_state_init ℚ)).arp_phase
          (phase_step_double (arp_freq_double (to_int P))) := by
  rw [run_double_succ, ← run_double_sample_pos P]
  rfl

theorem to_int_natCast {P : Nat} (hP : P ≤ 2147483647) : to_int (P : Int) = P :=
  to_int_of_range (by omega) (by omega)

theorem melody_freq_double_natCast (p : Nat) :
    (melody_freq_double (p : Int) : ℚ) = melody_value_at p := by
  unfold melody_freq_double melody_value_at
  rw [melody_freq_natCast, Rat.cast_id]

theorem bass_freq_double_natCast (p : Nat) :
    (bass_freq_double (p : Int) : ℚ) = bass_value_at p := by
  unfold bass_freq_double bass_value_at
  rw [bass_freq_natCast, Rat.cast_id]

theorem arp_freq_double_natCast (p : Nat) :
    (arp_freq_double (p : Int) : ℚ) = round_binary64 (arp_value_at p) := by
  have hi : 1 + Int.tmod ((p : Int) / 7350) 3 = ((1 + (p / 7350) % 3 : Nat) : Int) := by
    rw [Int.tmod_eq_emod (by omega) (by decide)]; omega
  unfold arp_freq_double arp_value_at
  rw [melody_freq_double_natCast, note_idx_of_nonneg (by omega), hi, Int.cast_natCast]

theorem melody_value_at_range (p : Nat) : 0 ≤ melody_value_at p ∧ melody_value_at p ≤ 295 := by
  rw [← melody_freq_double_natCast]
  exact melody_freq_double_range _

theorem bass_value_at_range (p : Nat) : 0 ≤ bass_value_at p ∧ bass_value_at p ≤ 301 := by
  rw [← bass_freq_double_natCast]
  exact bass_freq_double_range _

theorem arp_value_at_range (p : Nat) : 0 ≤ arp_value_at p ∧ arp_value_at p ≤ 885 := by
  have h := melody_value_at_range p
  have h3 : (p / 7350) % 3 < 3 := Nat.mod_lt _ (by decide)
  have hm0 : (0 : ℚ) ≤ ((1 + (p / 7350) % 3 : Nat) : ℚ) := Nat.cast_nonneg _
  have hm3 : ((1 + (p / 7350) % 3 : Nat) : ℚ) ≤ 3 := by exact_mod_cast (by omega)
  unfold arp_value_at
  constructor
  · exact mul_nonneg h.1 hm0
  · calc melody_value_at p * ((1 + (p / 7350) % 3 : Nat) : ℚ) ≤ 295 * 3 :=
          mul_le_mul h.2 hm3 hm0 (by norm_num)
      _ = 885 := by norm_num

/-! ### The range of the phases -/

theorem double_increment_nonneg {f : ℚ} (h0 : 0 ≤ f) (h1 : f ≤ 900) :
    0 ≤ phase_step_double f ∧ phase_step_double f ≤ 1 / 5
      ∧ |phase_step_double f - two_M_PI_double * f / 44100| ≤ 1 / 2 ^ 53 := by
  rw [phase_step_double_eq]
  exact rounded_increment round_binary64_error (by linarith [two_M_PI_double_range.1])
    two_M_PI_double_range.2 h0 h1 (by simp; positivity)

theorem double_increment_arp (p : Nat) :
    0 ≤ phase_step_double (round_binary64 (arp_value_at p))
      ∧ phase_step_double (round_binary64 (arp_value_at p)) ≤ 1 / 5
      ∧ |phase_step_double (round_binary64 (arp_value_at p))
          - two_M_PI_double * arp_value_at p / 44100| ≤ 1 / 2 ^ 53 := by
  rw [phase_step_double_eq]
  exact rounded_increment round_binary64_error (by linarith [two_M_PI_double_range.1])
    two_M_PI_double_range.2 (arp_value_at_range p).1
    (le_trans (arp_value_at_range p).2 (by norm_num)) (round_binary64_error _)

theorem sum_increments (T : ℚ) (F : Nat → ℚ) (P : Nat) :
    ∑ p in Finset.range P, T * F p / 44100 = T * phase_turns F P := by
  unfold phase_turns
  rw [Finset.mul_sum]
  exact Finset.sum_congr rfl (fun p _ => by ring)

/-- C10, counterexample. After one rendered sample the melody phase that the program
computes, `6768066025429085 / 2 ^ 58`, is not `2 * M_PI * (164.81 / 44100)` less an integer
multiple of `2 * M_PI`, whether `M_PI` and the table entry are read as the `double` values
the program holds or as the decimal literals of the source: the product and the quotient
of line 80 are rounded. -/
theorem phase_closed_form_inexact :
    (¬ ∃ k : Int, (run_double 1 (audio_state_init ℚ)).melody_phase
          = two_M_PI_double * phase_turns melody_value_at 1 - k * two_M_PI_double)
      ∧ (¬ ∃ k : Int, (run_double 1 (audio_state_init ℚ)).melody_phase
          = 2 * M_PI * phase_turns melody_freq_at 1 - k * (2 * M_PI)) := by
  have hv : melody_value_at 0 = 2899368181980201 / 2 ^ 44 := by
    rw [← melody_freq_double_natCast]
    exact melody_freq_double_zero
  have hf : melody_freq_at 0 = 164.81 := by simp [melody_freq_at, melody_notes]
  have ht1 : phase_turns melody_value_at 1 = 2899368181980201 / 2 ^ 44 / 44100 := by
    simp [phase_turns, hv]
  have ht2 : phase_turns melody_freq_at 1 = 164.81 / 44100 := by
    simp [phase_turns, hf]
  have key : ∀ k : Int,
      (run_double 1 (audio_state_init ℚ)).melody_phase
          ≠ two_M_PI_double * phase_turns melody_value_at 1 - k * two_M_PI_double
        ∧ (run_double 1 (audio_state_init ℚ)).melody_phase
          ≠ 2 * M_PI * phase_turns melody_freq_at 1 - k * (2 * M_PI) := by
    intro k
    rw [run_double_one_melody, two_M_PI_double_eq, ht1, ht2]
    unfold M_PI
    rcases lt_trichotomy k 0 with hk | hk | hk
    · have hk1 : (k : ℚ) ≤ -1 := by exact_mod_cast (by omega : k ≤ -1)
      constructor <;> intro h <;> norm_num at h <;> linarith
    · rw [hk]
      constructor <;> norm_num
    · have hk1 : (1 : ℚ) ≤ (k : ℚ) := by exact_mod_cast (by omega : 1 ≤ k)
      constructor <;> intro h <;> norm_num at h <;> linarith
  exact ⟨fun ⟨k, h⟩ => (key k).1 h, fun ⟨k, h⟩ => (key k).2 h⟩

/-- C10, amended. Starting from all-zero phases and sample position 0, for every `P` with
`0 ≤ P ≤ 2147483647` and each of the three voices, the phase that the program has computed
after `P` rendered samples differs by at most `P / 2 ^ 50` from `2 * M_PI` times the sum over
`p` in `[0, P)` of `f p / 44100`, less an integer multiple of `2 * M_PI`; `f p` is the
frequency the sequencer assigns to the voice at sample position `p`, and `M_PI` and the
table entries are the `double` values the program holds. -/
theorem phase_closed_form (P : Nat) (hP : P ≤ 2147483647) :
    (∃ k : Int, |(run_double P (audio_state_init ℚ)).melody_phase
        - (two_M_PI_double * phase_turns melody_value_at P - k * two_M_PI_double)|
          ≤ P / 2 ^ 50)
      ∧ (∃ k : Int, |(run_double P (audio_state_init ℚ)).bass_phase
        - (two_M_PI_double * phase_turns bass_value_at P - k * two_M_PI_double)|
          ≤ P / 2 ^ 50)
      ∧ (∃ k : Int, |(run_double P (audio_state_init ℚ)).arp_phase
        - (two_M_PI_double * phase_turns arp_value_at P - k * two_M_PI_double)|
          ≤ P / 2 ^ 50) := by
  have hT := two_M_PI_double_range
  refine ⟨?_, ?_, ?_⟩
  · have h := rounded_oscillator_closed_form round_binary64_error hT.1 hT.2
      (fun P => (run_double P (audio_state_init ℚ)).melody_phase)
      (fun p => phase_step_double (melody_freq_double (to_int p)))
      (fun p => two_M_PI_double * melody_value_at p / 44100) P rfl
      (fun p _ => run_double_succ_melody p)
      (fun p hp => by
        beta_reduce
        rw [to_int_natCast (by omega), melody_freq_double_natCast]
        exact double_increment_nonneg (melody_value_at_range p).1
          (le_trans (melody_value_at_range p).2 (by norm_num))) P (le_refl P)
    rw [sum_increments] at h
    exact h
  · have h := rounded_oscillator_closed_form round_binary64_error hT.1 hT.2
      (fun P => (run_double P (audio_state_init ℚ)).bass_phase)
      (fun p => phase_step_double (bass_freq_double (to_int p)))
      (fun p => two_M_PI_double * bass_value_at p / 44100) P rfl
      (fun p _ => run_double_succ_bass p)
      (fun p hp => by
        beta_reduce
        rw [to_int_natCast (by omega), bass_freq_double_natCast]
        exact double_increment_nonneg (bass_value_at_range p).1
          (le_trans (bass_value_at_range p).2 (by norm_num))) P (le_refl P)
    rw [sum_increments] at h
    exact h
  · have h := rounded_oscillator_closed_form round_binary64_error hT.1 hT.2
      (fun P => (run_double P (audio_state_init ℚ)).arp_phase)
      (fun p => phase_step_double (arp_freq_double (to_int p)))
      (fun p => two_M_PI_double * arp_value_at p / 44100) P rfl
      (fun p _ => run_double_succ_arp p)
      (fun p hp => by
        beta_reduce
        rw [to_int_natCast (by omega), arp_freq_double_natCast]
        exact double_increment_arp p) P (le_refl P)
    rw [sum_increments] at h
    exact h

/-- C10, witness: the position 59127. -/
theorem phase_closed_form_witness :
    ∃ k : Int, |(run_double 59127 (audio_state_init ℚ)).bass_phase
        - (two_M_PI_double * phase_turns bass_value_at 59127 - k * two_M_PI_double)|
          ≤ (59127 : Nat) / 2 ^ 50 :=
  (phase_closed_form 59127 (by decide)).2.1

/-! ## The quantizer -/

section NoWrap

variable {K : Type} [LinearOrderedField K]

end NoWrap

end Synth
